import Mathlib

/-!
Verification of the crypto000 trading pipeline (`src/crypto000.py`).

The development shallowly embeds the numerical and stateful core of the
program over exact rational arithmetic:

* `_ewma_infinite_hist` (the streaming recursive EMA),
* the crossover signal computation inside `Trader.populate_signal_queue`,
* the position state machine inside `Trader.execute_trades_on_queue`,
* the latency sample production of `Trader.populate_signal_queue` and the
  batched persistence loop `Trader.latency_bookkeeper`.

Machine floats are modelled as rationals `ℚ`; integer millisecond
timestamps as `ℤ`.
-/

namespace Crypto000

/-! ### Streaming EMA (`_ewma_infinite_hist`, lines 96-102) -/

/-- `alpha = 2 / float(window + 1)` (line 98). -/
def alphaQ (w : ℕ) : ℚ := 2 / (w + 1)

/-- The recurrence filled into the `ewma` array by `_ewma_infinite_hist`:
`ewma[0] = arr_in[0]` and `ewma[i] = arr_in[i] * alpha + ewma[i-1] * (1 - alpha)`
(lines 99-101), as a function of the index. -/
def emaRec (a : ℚ) (x : ℕ → ℚ) : ℕ → ℚ
  | 0 => x 0
  | t + 1 => x (t + 1) * a + emaRec a x t * (1 - a)

/-- `_ewma_infinite_hist(arr_in, window)`: the array whose cell `i` holds the
value of the recurrence `emaRec` at index `i`, with `alpha = 2/(window+1)`. -/
def ewmaInfiniteHist (xs : List ℚ) (w : ℕ) : List ℚ :=
  (List.range xs.length).map (emaRec (alphaQ w) (fun i => xs.getD i 0))

/-- Closed form of the `adjust=False` exponential-smoothing average, written
from the spec's words (§8: "the closed-form exponential-smoothing average
(`adjust=False` semantics)"): geometrically decaying weights over the whole
history, with weight `(1-a)^t` on the initial sample. -/
def closedFormGen (a : ℚ) (x : ℕ → ℚ) (t : ℕ) : ℚ :=
  (1 - a) ^ t * x 0 + a * ∑ i in Finset.Icc 1 t, (1 - a) ^ (t - i) * x i

/-- Modelled from the spec: the closed-form `adjust=False` exponential
smoothing average for decay window `w`. -/
def emaClosedFormSpec (x : ℕ → ℚ) (w : ℕ) (t : ℕ) : ℚ :=
  closedFormGen (alphaQ w) x t

theorem length_ewmaInfiniteHist (xs : List ℚ) (w : ℕ) :
    (ewmaInfiniteHist xs w).length = xs.length := by
  simp [ewmaInfiniteHist]

theorem getD_ewmaInfiniteHist (xs : List ℚ) (w : ℕ) (t : ℕ) (h : t < xs.length) :
    (ewmaInfiniteHist xs w).getD t 0 = emaRec (alphaQ w) (fun i => xs.getD i 0) t := by
  have hlen : t < (ewmaInfiniteHist xs w).length := by
    rw [length_ewmaInfiniteHist]; exact h
  rw [List.getD_eq_getElem _ _ hlen]
  simp [ewmaInfiniteHist]

theorem emaRec_eq_closedFormGen (a : ℚ) (x : ℕ → ℚ) : ∀ t, emaRec a x t = closedFormGen a x t := by
  intro t
  induction t with
  | zero => simp [emaRec, closedFormGen]
  | succ t ih =>
    have hsum : ∑ i in Finset.Icc 1 (t + 1), (1 - a) ^ (t + 1 - i) * x i
        = (1 - a) * ∑ i in Finset.Icc 1 t, (1 - a) ^ (t - i) * x i + x (t + 1) := by
      rw [Finset.sum_Icc_succ_top (Nat.succ_le_succ (Nat.zero_le t))]
      have hpow : ∀ i ∈ Finset.Icc 1 t, (1 - a) ^ (t + 1 - i) * x i
          = (1 - a) * ((1 - a) ^ (t - i) * x i) := by
        intro i hi
        have hit : i ≤ t := (Finset.mem_Icc.mp hi).2
        have : t + 1 - i = (t - i) + 1 := by omega
        rw [this, pow_succ]
        ring
      rw [Finset.sum_congr rfl hpow, ← Finset.mul_sum]
      simp
    rw [emaRec, ih, closedFormGen, closedFormGen, hsum]
    ring

/-- C2: the streaming recursive EMA of `_ewma_infinite_hist` agrees at every
index with the closed-form `adjust=False` exponential-smoothing average,
exactly, over rational arithmetic. -/
theorem ewmaInfiniteHist_eq_closedForm (xs : List ℚ) (w : ℕ) (t : ℕ) (h : t < xs.length) :
    (ewmaInfiniteHist xs w).getD t 0 = emaClosedFormSpec (fun i => xs.getD i 0) w t := by
  rw [getD_ewmaInfiniteHist xs w t h, emaClosedFormSpec, emaRec_eq_closedFormGen]

/-- Witness for C2: concrete instance at `xs = [10, 11, 13]`, window 4, index 2. -/
theorem ewmaInfiniteHist_eq_closedForm_witness :
    (ewmaInfiniteHist [10, 11, 13] 4).getD 2 0
      = emaClosedFormSpec (fun i => ([10, 11, 13] : List ℚ).getD i 0) 4 2 :=
  ewmaInfiniteHist_eq_closedForm [10, 11, 13] 4 2 (by decide)

/-! ### Crossover signal computation (`Trader.populate_signal_queue`, lines 209-228)

Per processed snapshot the code forms the mid-price array `y`, computes
`emabase = _ewma_infinite_hist(y, b)`, `emaY = _ewma_infinite_hist(y, e)`,
`emadiff = emaY - emabase`, `emasigndiff = np.diff(np.sign(emadiff))`, and
emits BUY when the last entry of `emasigndiff` is positive and SELL when it
is negative (the `nan`-masking plus the `>= .9` threshold on a 0/1 array is
exactly that sign test). When `emasigndiff` is empty, `buy[-1]` raises
`IndexError`; the evaluation is modelled as `none` in that case. -/

inductive Direction where
  | BUY : Direction
  | SELL : Direction
deriving DecidableEq, Repr

/-- `np.sign` on a rational. -/
def npSign (q : ℚ) : ℤ :=
  if q < 0 then -1 else if q = 0 then 0 else 1

/-- `emadiff = emaY - emabase` (line 212), with `emabase = _ewma_infinite_hist(y, b)`
and `emaY = _ewma_infinite_hist(y, e)` (lines 210-211). -/
def emadiff (ys : List ℚ) (b e : ℕ) : List ℚ :=
  List.zipWith (fun u v => u - v) (ewmaInfiniteHist ys e) (ewmaInfiniteHist ys b)

/-- Directional decision from the last entry of `np.diff(np.sign(emadiff))`:
`buy[-1] >= .9` holds exactly when that entry is positive and
`sell[-1] >= .9` exactly when it is negative (lines 214-228). -/
def crossSignal (s : ℤ) : Option Direction :=
  if 0 < s then some Direction.BUY else if s < 0 then some Direction.SELL else none

/-- One snapshot's signal evaluation on the current mid-series `ys` (the
series *after* appending the snapshot's mid-price).  `none` models the
`IndexError` raised by `buy[-1]` / `sell[-1]` when `np.diff` of the sign
array is empty, i.e. when fewer than two diff values exist; otherwise
`some d` where `d` is the emitted direction (or `none` inside when no
crossover fired). -/
def snapshotEval (ys : List ℚ) (b e : ℕ) : Option (Option Direction) :=
  let ds := emadiff ys b e
  if 2 ≤ ds.length then
    some (crossSignal (npSign (ds.getD (ds.length - 1) 0) - npSign (ds.getD (ds.length - 2) 0)))
  else
    none

/-- The signals emitted while streaming the mid-price sequence `xs` through
the loop of `populate_signal_queue`: snapshot `t` is evaluated on the prefix
`xs.take (t+1)` (the mid-series as it stands after that snapshot's append),
and an emitted signal carries the snapshot index, the direction, and
`y[-1] = xs[t]` (lines 223-228). -/
def emittedSignals (xs : List ℚ) (b e : ℕ) : List (ℕ × Direction × ℚ) :=
  (List.range xs.length).filterMap (fun t =>
    match snapshotEval (xs.take (t + 1)) b e with
    | some (some d) => some (t, d, xs.getD t 0)
    | _ => none)

theorem length_emadiff (ys : List ℚ) (b e : ℕ) : (emadiff ys b e).length = ys.length := by
  simp [emadiff, length_ewmaInfiniteHist]

theorem getD_emadiff (ys : List ℚ) (b e : ℕ) (t : ℕ) (h : t < ys.length) :
    (emadiff ys b e).getD t 0
      = emaRec (alphaQ e) (fun i => ys.getD i 0) t - emaRec (alphaQ b) (fun i => ys.getD i 0) t := by
  have hlen : t < (emadiff ys b e).length := by rw [length_emadiff]; exact h
  rw [List.getD_eq_getElem _ _ hlen]
  have he : t < (ewmaInfiniteHist ys e).length := by rw [length_ewmaInfiniteHist]; exact h
  have hb : t < (ewmaInfiniteHist ys b).length := by rw [length_ewmaInfiniteHist]; exact h
  simp only [emadiff]
  rw [List.getElem_zipWith]
  rw [← List.getD_eq_getElem _ 0 he, ← List.getD_eq_getElem _ 0 hb,
    getD_ewmaInfiniteHist ys e t h, getD_ewmaInfiniteHist ys b t h]

theorem getD_take_eq (xs : List ℚ) (k i : ℕ) (h : i < k) :
    (xs.take k).getD i 0 = xs.getD i 0 := by
  by_cases hi : i < xs.length
  · have h1 : i < (xs.take k).length := by
      rw [List.length_take]; omega
    rw [List.getD_eq_getElem _ _ h1, List.getD_eq_getElem _ _ hi]
    exact List.getElem_take _
  · have h1 : ¬ i < (xs.take k).length := by
      rw [List.length_take]; omega
    rw [List.getD_eq_default _ _ (by omega), List.getD_eq_default _ _ (by omega)]

/-- The recurrence only looks at indices up to `t`. -/
theorem emaRec_congr (a : ℚ) (x y : ℕ → ℚ) :
    ∀ t, (∀ i, i ≤ t → x i = y i) → emaRec a x t = emaRec a y t := by
  intro t
  induction t with
  | zero => intro h; simp [emaRec, h 0 (Nat.le_refl 0)]
  | succ t ih =>
    intro h
    rw [emaRec, emaRec, h (t + 1) (Nat.le_refl _), ih (fun i hi => h i (Nat.le_succ_of_le hi))]

/-- Prefix stability: a diff value over the mid-series prefix of length `k`
agrees with the diff value over the full series, at any index below `k`. -/
theorem getD_emadiff_take (xs : List ℚ) (b e : ℕ) (k t : ℕ) (ht : t < k) (hk : k ≤ xs.length) :
    (emadiff (xs.take k) b e).getD t 0 = (emadiff xs b e).getD t 0 := by
  have hlen : (xs.take k).length = k := by
    rw [List.length_take]; omega
  have ht' : t < (xs.take k).length := by omega
  rw [getD_emadiff _ b e t ht', getD_emadiff xs b e t (by omega)]
  have hc : ∀ w : ℕ, emaRec (alphaQ w) (fun i => (xs.take k).getD i 0) t
      = emaRec (alphaQ w) (fun i => xs.getD i 0) t := by
    intro w
    exact emaRec_congr _ _ _ t (fun i hi => getD_take_eq xs k i (by omega))
  rw [hc e, hc b]

/-- Unfolded form of the snapshot evaluation when at least two diff values exist. -/
theorem snapshotEval_of_two_le (ys : List ℚ) (b e : ℕ) (h : 2 ≤ ys.length) :
    snapshotEval ys b e
      = some (crossSignal (npSign ((emadiff ys b e).getD (ys.length - 1) 0)
          - npSign ((emadiff ys b e).getD (ys.length - 2) 0))) := by
  have hl : (emadiff ys b e).length = ys.length := length_emadiff ys b e
  rw [snapshotEval]
  simp only [hl]
  rw [if_pos h]

theorem snapshotEval_of_short (ys : List ℚ) (b e : ℕ) (h : ys.length ≤ 1) :
    snapshotEval ys b e = none := by
  have hl : (emadiff ys b e).length = ys.length := length_emadiff ys b e
  rw [snapshotEval]
  simp only [hl]
  rw [if_neg (by omega)]

/-! ### Ordering facts about the recursive EMA on increasing inputs -/

theorem alphaQ_pos (w : ℕ) : 0 < alphaQ w := by
  have h : (0 : ℚ) < (w : ℚ) + 1 := by positivity
  exact div_pos (by norm_num) h

theorem alphaQ_le_one (w : ℕ) (hw : 1 ≤ w) : alphaQ w ≤ 1 := by
  rw [alphaQ, div_le_one (by positivity)]
  have : (1 : ℚ) ≤ (w : ℚ) := by exact_mod_cast hw
  linarith

theorem alphaQ_strict_anti (b e : ℕ) (h : b < e) : alphaQ e < alphaQ b := by
  rw [alphaQ, alphaQ]
  have hb : (0 : ℚ) < (b : ℚ) + 1 := by positivity
  have he : (0 : ℚ) < (e : ℚ) + 1 := by positivity
  have hbe : (b : ℚ) + 1 < (e : ℚ) + 1 := by
    have : (b : ℚ) < (e : ℚ) := by exact_mod_cast h
    linarith
  exact div_lt_div_of_pos_left (by norm_num) hb hbe

/-- On a strictly increasing input, the EMA lags at or below the current sample. -/
theorem emaRec_le_self (a : ℚ) (x : ℕ → ℚ) (_ha0 : 0 < a) (ha1 : a ≤ 1) :
    ∀ t, (∀ i, i + 1 ≤ t → x i < x (i + 1)) → emaRec a x t ≤ x t := by
  intro t
  induction t with
  | zero => intro _; simp [emaRec]
  | succ t ih =>
    intro hm
    have h1 : emaRec a x t ≤ x t := ih (fun i hi => hm i (Nat.le_succ_of_le hi))
    have h2 : x t < x (t + 1) := hm t (Nat.le_refl _)
    have h3 : (0 : ℚ) ≤ 1 - a := by linarith
    rw [emaRec]
    nlinarith [mul_le_mul_of_nonneg_left (le_of_lt h2) h3]

/-- On a strictly increasing input, the EMA with the larger decay factor
(the faster window) is at least the slower one, strictly so from index 1. -/
theorem emaRec_slow_le_fast (aF aS : ℚ) (x : ℕ → ℚ)
    (hS0 : 0 < aS) (hSF : aS < aF) (hF1 : aF ≤ 1) :
    ∀ t, (∀ i, i + 1 ≤ t → x i < x (i + 1)) →
      emaRec aS x t ≤ emaRec aF x t ∧ (1 ≤ t → emaRec aS x t < emaRec aF x t) := by
  intro t
  induction t with
  | zero => intro _; exact ⟨le_of_eq rfl, by omega⟩
  | succ t ih =>
    intro hm
    have hm' : ∀ i, i + 1 ≤ t → x i < x (i + 1) := fun i hi => hm i (Nat.le_succ_of_le hi)
    have hle : emaRec aS x t ≤ emaRec aF x t := (ih hm').1
    have hS1 : aS ≤ 1 := le_of_lt (lt_of_lt_of_le hSF hF1)
    have hsx : emaRec aS x t ≤ x t := emaRec_le_self aS x hS0 hS1 t hm'
    have hxx : x t < x (t + 1) := hm t (Nat.le_refl _)
    have hF : (0 : ℚ) ≤ 1 - aF := by linarith
    have key : emaRec aS x (t + 1) < emaRec aF x (t + 1) := by
      rw [emaRec, emaRec]
      nlinarith [mul_le_mul_of_nonneg_left hle hF,
        mul_pos (sub_pos.mpr hSF) (sub_pos.mpr (lt_of_le_of_lt hsx hxx))]
    exact ⟨le_of_lt key, fun _ => key⟩

theorem npSign_of_neg (q : ℚ) (h : q < 0) : npSign q = -1 := by
  rw [npSign, if_pos h]

theorem npSign_zero : npSign 0 = 0 := by
  rw [npSign, if_neg (by norm_num), if_pos rfl]

/-- Helper to evaluate the streamed signal list when only index 1 fires. -/
theorem filterMap_range_eq_single {α : Type} (g : ℕ → Option α) (v : α) :
    ∀ n, 2 ≤ n → g 0 = none → g 1 = some v → (∀ t, 2 ≤ t → t < n → g t = none) →
      (List.range n).filterMap g = [v] := by
  intro n
  induction n with
  | zero => intro h; omega
  | succ n ih =>
    intro hn h0 h1 h2
    by_cases hn2 : 2 ≤ n
    · rw [List.range_succ, List.filterMap_append,
        ih hn2 h0 h1 (fun t ht htn => h2 t ht (by omega))]
      simp [h2 n hn2 (by omega)]
    · have : n = 1 := by omega
      subst this
      simp [List.range_succ, h0, h1]

/-! ### Claim C1 -/

/-- Counterexample for C1: streaming the spec's scenario sequence
`[10, 10, 11, 13, 16]` with windows `b = 2` (fast) and `e = 4` (slow)
through the loop of `populate_signal_queue` emits exactly one SELL signal
(at index 2, price 11) and no BUY signal at all, contradicting the claimed
single BUY with zero SELLs. -/
theorem emittedSignals_scenario_no_buy :
    emittedSignals [10, 10, 11, 13, 16] 2 4 = [(2, Direction.SELL, 11)] := by
  with_unfolding_all rfl

/-- C1 (amended): for every strictly increasing mid-price sequence of length
at least two and windows `1 ≤ b < e`, the per-snapshot crossover computation
emits exactly one SELL signal, at the index where `emadiff` (slow EMA minus
fast EMA) first becomes negative — equivalently, where the fast EMA first
exceeds the slow EMA, which is index 1 — carrying the mid-price at that
index, and emits zero BUY signals. -/
theorem emittedSignals_strict_mono (xs : List ℚ) (b e : ℕ)
    (hb : 1 ≤ b) (hbe : b < e) (hlen : 2 ≤ xs.length)
    (hmono : ∀ i, i + 1 < xs.length → xs.getD i 0 < xs.getD (i + 1) 0) :
    emittedSignals xs b e = [(1, Direction.SELL, xs.getD 1 0)] := by
  have hS0 : 0 < alphaQ e := alphaQ_pos e
  have hSF : alphaQ e < alphaQ b := alphaQ_strict_anti b e hbe
  have hF1 : alphaQ b ≤ 1 := alphaQ_le_one b hb
  set x : ℕ → ℚ := fun i => xs.getD i 0 with hx
  have hmrestrict : ∀ t, t < xs.length → ∀ i, i + 1 ≤ t → x i < x (i + 1) := by
    intro t ht i hi
    exact hmono i (by omega)
  -- the diff value at in-range indices, over the full series
  have hdiff : ∀ t, t < xs.length →
      (emadiff xs b e).getD t 0 = emaRec (alphaQ e) x t - emaRec (alphaQ b) x t := by
    intro t ht
    exact getD_emadiff xs b e t ht
  have hd0 : (emadiff xs b e).getD 0 0 = 0 := by
    rw [hdiff 0 (by omega)]
    simp [emaRec]
  have hdneg : ∀ t, 1 ≤ t → t < xs.length → (emadiff xs b e).getD t 0 < 0 := by
    intro t h1 ht
    rw [hdiff t ht]
    have := (emaRec_slow_le_fast (alphaQ b) (alphaQ e) x hS0 hSF hF1 t
      (hmrestrict t ht)).2 h1
    linarith
  -- characterise each snapshot's evaluation
  have heval : ∀ t, 1 ≤ t → t < xs.length →
      snapshotEval (xs.take (t + 1)) b e
        = some (crossSignal (npSign ((emadiff xs b e).getD t 0)
            - npSign ((emadiff xs b e).getD (t - 1) 0))) := by
    intro t h1 ht
    have hklen : (xs.take (t + 1)).length = t + 1 := by
      rw [List.length_take]; omega
    rw [snapshotEval_of_two_le _ b e (by omega)]
    rw [hklen]
    have e1 : t + 1 - 1 = t := by omega
    have e2 : t + 1 - 2 = t - 1 := by omega
    rw [e1, e2, getD_emadiff_take xs b e (t + 1) t (by omega) (by omega),
      getD_emadiff_take xs b e (t + 1) (t - 1) (by omega) (by omega)]
  -- the function streamed through filterMap
  apply filterMap_range_eq_single _ _ xs.length hlen
  · have : snapshotEval (xs.take 1) b e = none := by
      apply snapshotEval_of_short
      rw [List.length_take]; omega
    simp [this]
  · rw [heval 1 (Nat.le_refl _) (by omega)]
    have hval : npSign ((emadiff xs b e).getD 1 0)
        - npSign ((emadiff xs b e).getD (1 - 1) 0) = -1 := by
      have e0 : (1 : ℕ) - 1 = 0 := rfl
      rw [npSign_of_neg _ (hdneg 1 (Nat.le_refl _) (by omega)), e0, hd0, npSign_zero]
      decide
    rw [hval]
    rfl
  · intro t ht htn
    rw [heval t (by omega) htn]
    have hval : npSign ((emadiff xs b e).getD t 0)
        - npSign ((emadiff xs b e).getD (t - 1) 0) = 0 := by
      rw [npSign_of_neg _ (hdneg t (by omega) htn),
        npSign_of_neg _ (hdneg (t - 1) (by omega) (by omega))]
      norm_num
    rw [hval]
    rfl

/-- Witness for C1 (amended): the strictly increasing sequence `[10, 11, 13]`
with fast window 2 and slow window 4 yields the single SELL at index 1. -/
theorem emittedSignals_strict_mono_witness :
    emittedSignals [10, 11, 13] 2 4 = [(1, Direction.SELL, 11)] := by
  have h := emittedSignals_strict_mono [10, 11, 13] 2 4 (by decide) (by decide) (by decide)
    (by
      intro i hi
      have hcases : i = 0 ∨ i = 1 := by
        simp only [List.length_cons, List.length_nil] at hi
        omega
      rcases hcases with h0 | h1
      · subst h0
        show ([10, 11, 13] : List ℚ).getD 0 0 < ([10, 11, 13] : List ℚ).getD 1 0
        with_unfolding_all decide
      · subst h1
        show ([10, 11, 13] : List ℚ).getD 1 0 < ([10, 11, 13] : List ℚ).getD 2 0
        with_unfolding_all decide)
  have h2 : ([10, 11, 13] : List ℚ).getD 1 0 = 11 := by with_unfolding_all rfl
  rw [h2] at h
  exact h

/-! ### Claim C3 -/

theorem crossSignal_eq_buy (s : ℤ) : crossSignal s = some Direction.BUY ↔ 0 < s := by
  rw [crossSignal]
  by_cases h : 0 < s
  · simp [h]
  · rw [if_neg h]
    by_cases h2 : s < 0 <;> simp [h2, h]

theorem crossSignal_eq_sell (s : ℤ) : crossSignal s = some Direction.SELL ↔ s < 0 := by
  rw [crossSignal]
  by_cases h : 0 < s
  · simp [h]
    omega
  · rw [if_neg h]
    by_cases h2 : s < 0 <;> simp [h2, h]

/-- Counterexample for C3: on the mid-series `[10, 12, 11]` with windows
`b = 1`, `e = 3`, the diff sign moves from `-1` (previous sample) to `0`
(current sample) — negative to *zero*, not to positive — and yet the
snapshot evaluation emits a BUY signal, contradicting the claim that BUY is
emitted exactly on a negative-or-zero to positive sign change. -/
theorem snapshotEval_buy_on_zero_sign :
    snapshotEval [10, 12, 11] 1 3 = some (some Direction.BUY)
    ∧ npSign ((emadiff [10, 12, 11] 1 3).getD 2 0) = 0
    ∧ npSign ((emadiff [10, 12, 11] 1 3).getD 1 0) = -1 :=
  ⟨by with_unfolding_all rfl, by with_unfolding_all rfl, by with_unfolding_all rfl⟩

/-- C3 (amended): for every processed snapshot where at least two diff values
exist, the engine emits BUY exactly when the sign of `diff` strictly
*increases* between the previous and the current sample (negative to zero,
negative to positive, or zero to positive), and SELL exactly when it strictly
decreases; only the last two diff values are consulted (the decision is a
function of exactly those two values). -/
theorem snapshotEval_edge_triggered (ys : List ℚ) (b e : ℕ) (h : 2 ≤ ys.length) :
    (snapshotEval ys b e = some (some Direction.BUY)
      ↔ npSign ((emadiff ys b e).getD (ys.length - 2) 0)
          < npSign ((emadiff ys b e).getD (ys.length - 1) 0))
    ∧ (snapshotEval ys b e = some (some Direction.SELL)
      ↔ npSign ((emadiff ys b e).getD (ys.length - 1) 0)
          < npSign ((emadiff ys b e).getD (ys.length - 2) 0)) := by
  rw [snapshotEval_of_two_le ys b e h]
  simp only [Option.some.injEq, crossSignal_eq_buy, crossSignal_eq_sell, sub_pos, sub_neg]
  exact ⟨trivial, trivial⟩

/-- Witness for C3 (amended): concrete instance on `[10, 12, 11]`, `b = 1`, `e = 3`. -/
theorem snapshotEval_edge_triggered_witness :
    (snapshotEval [10, 12, 11] 1 3 = some (some Direction.BUY)
      ↔ npSign ((emadiff [10, 12, 11] 1 3).getD 1 0)
          < npSign ((emadiff [10, 12, 11] 1 3).getD 2 0))
    ∧ (snapshotEval [10, 12, 11] 1 3 = some (some Direction.SELL)
      ↔ npSign ((emadiff [10, 12, 11] 1 3).getD 2 0)
          < npSign ((emadiff [10, 12, 11] 1 3).getD 1 0)) := by
  have h := snapshotEval_edge_triggered [10, 12, 11] 1 3 (by decide)
  simpa using h

/-! ### Claim C10 -/

/-- C10: the crossover evaluation of `populate_signal_queue` is partial on a
too-short mid-series: with the default empty `ydata`, the very first snapshot
yields a one-element mid-series, the sign-difference array is empty, and
`buy[-1]` is out of bounds (modelled `none`); as soon as the mid-series holds
at least two entries — which pre-seeding `ydata` with fetched OHLC history
guarantees from the first processed snapshot on — the evaluation is total. -/
theorem snapshotEval_total_iff_seeded :
    (∀ b e : ℕ, ∀ ys : List ℚ, ys.length ≤ 1 → snapshotEval ys b e = none)
    ∧ (∀ b e : ℕ, ∀ ys : List ℚ, 2 ≤ ys.length → (snapshotEval ys b e).isSome = true) := by
  constructor
  · intro b e ys h
    exact snapshotEval_of_short ys b e h
  · intro b e ys h
    rw [snapshotEval_of_two_le ys b e h]
    rfl

/-- Witness for C10: the first snapshot on an unseeded series is out of
bounds, and a two-entry series is evaluated. -/
theorem snapshotEval_total_iff_seeded_witness :
    snapshotEval [10] 2 4 = none ∧ (snapshotEval [10, 11] 2 4).isSome = true :=
  ⟨snapshotEval_total_iff_seeded.1 2 4 [10] (by decide),
   snapshotEval_total_iff_seeded.2 2 4 [10, 11] (by decide)⟩

/-! ### Executor (`Trader.execute_trades_on_queue`, lines 250-275)

Signals on the shared queue are the lists `[ts, 'BUY'|'SELL', pair, price]`
produced by `populate_signal_queue`.  The `self.stakes` dict is modelled as
a total map `String → ℚ` where absent keys read as `0` (the code's
`if sgnl[2] not in self.stakes: self.stakes[sgnl[2]] = 0` first touch is
observationally exactly that default).  `do_buy` / `do_sell` append one
entry to `self.past_trades`; the formatted entry is modelled as a record of
the data interpolated into it.  Timestamps are integer milliseconds. -/

/-- A `Signal` value `[ts, direction, pair, price]`. -/
structure Signal where
  ts : ℤ
  dir : Direction
  pair : String
  price : ℚ
deriving Repr

/-- One `past_trades` entry, as appended by `do_buy` (no profit/roi) or
`do_sell` (with profit and roi). -/
structure TradeRecord where
  ts : ℤ
  pair : String
  action : Direction
  price : ℚ
  tradeProfit : Option ℚ
  tradeRoi : Option ℚ
deriving Repr

/-- The executor-owned mutable state: `self.stakes`, `self.profit`,
`self.roi`, `self.past_trades`. -/
structure ExecState where
  stakes : String → ℚ
  profit : ℚ
  roi : ℚ
  pastTrades : List TradeRecord

/-- The loop body of `execute_trades_on_queue` for one dequeued signal
(lines 253-275): staleness admission (`sgnl_age < 5000`), then the BUY /
SELL position state machine. -/
def execStep (now : ℤ) (st : ExecState) (s : Signal) : ExecState :=
  if now - s.ts < 5000 then
    let stake := st.stakes s.pair
    match s.dir with
    | Direction.BUY =>
      if stake = 0 then
        { st with
          stakes := Function.update st.stakes s.pair s.price,
          pastTrades := st.pastTrades ++ [⟨s.ts, s.pair, Direction.BUY, s.price, none, none⟩] }
      else st
    | Direction.SELL =>
      if 0 < stake then
        let pp := s.price - stake
        if 0 < pp then
          { st with
            stakes := Function.update st.stakes s.pair 0,
            roi := st.roi + pp / stake,
            profit := st.profit + pp,
            pastTrades :=
              st.pastTrades ++ [⟨s.ts, s.pair, Direction.SELL, s.price, some pp, some (pp / stake)⟩] }
        else st
      else st
  else st

/-- The executor's initial state: `profit = 0`, `roi = 0`, empty trade log,
empty stakes dict. -/
def initExec : ExecState :=
  { stakes := fun _ => 0, profit := 0, roi := 0, pastTrades := [] }

/-- Consuming a whole trace of signals, each paired with the wall-clock
`now` at which the executor dequeues it. -/
def execRun (events : List (ℤ × Signal)) : ExecState :=
  events.foldl (fun st ev => execStep ev.1 st ev.2) initExec

/-! ### Claim C4 -/

/-- C4: from a Long position (`stakes[pair] = s > 0`), a fresh SELL at price
`p` with `p - s > 0` adds exactly `p - s` to total profit and `(p - s)/s` to
total roi, zeroes the instrument's stake (Flat), and appends exactly one
trade record. -/
theorem execStep_profitable_sell (now : ℤ) (st : ExecState) (sg : Signal)
    (hdir : sg.dir = Direction.SELL) (hfresh : now - sg.ts < 5000)
    (hlong : 0 < st.stakes sg.pair) (hpnl : 0 < sg.price - st.stakes sg.pair) :
    (execStep now st sg).profit = st.profit + (sg.price - st.stakes sg.pair)
    ∧ (execStep now st sg).roi
        = st.roi + (sg.price - st.stakes sg.pair) / st.stakes sg.pair
    ∧ (execStep now st sg).stakes sg.pair = 0
    ∧ (execStep now st sg).pastTrades.length = st.pastTrades.length + 1 := by
  rw [execStep, if_pos hfresh, hdir]
  simp only [if_pos hlong, if_pos hpnl]
  refine ⟨?_, ?_, ?_, ?_⟩ <;> simp [Function.update]

/-- Witness for C4: Long at 100, fresh SELL at 120 (age 0) yields
`profit += 20`, `roi += 1/5`, Flat, and one appended record. -/
theorem execStep_profitable_sell_witness :
    (execStep 1000 { initExec with stakes := Function.update initExec.stakes "X" 100 }
        ⟨1000, Direction.SELL, "X", 120⟩).profit
      = { initExec with stakes := Function.update initExec.stakes "X" 100 }.profit + (120 - 100)
    ∧ (execStep 1000 { initExec with stakes := Function.update initExec.stakes "X" 100 }
        ⟨1000, Direction.SELL, "X", 120⟩).roi
      = { initExec with stakes := Function.update initExec.stakes "X" 100 }.roi
          + (120 - 100) / 100
    ∧ (execStep 1000 { initExec with stakes := Function.update initExec.stakes "X" 100 }
        ⟨1000, Direction.SELL, "X", 120⟩).stakes "X" = 0
    ∧ (execStep 1000 { initExec with stakes := Function.update initExec.stakes "X" 100 }
        ⟨1000, Direction.SELL, "X", 120⟩).pastTrades.length
      = { initExec with stakes := Function.update initExec.stakes "X" 100 }.pastTrades.length
          + 1 := by
  have h := execStep_profitable_sell 1000
    { initExec with stakes := Function.update initExec.stakes "X" 100 }
    ⟨1000, Direction.SELL, "X", 120⟩ rfl (by norm_num)
    (by simp [Function.update, initExec])
    (by simp [Function.update, initExec]; norm_num)
  simpa [Function.update, initExec] using h

/-! ### Claim C5 -/

/-- C5: a fresh SELL at a price no greater than the current stake (including
the Flat case, stake 0) changes nothing: the instrument keeps its stake, no
trade record is appended, and total profit and roi are unchanged. -/
theorem execStep_unprofitable_sell (now : ℤ) (st : ExecState) (sg : Signal)
    (hdir : sg.dir = Direction.SELL) (hfresh : now - sg.ts < 5000)
    (hle : sg.price ≤ st.stakes sg.pair ∨ st.stakes sg.pair = 0) :
    (execStep now st sg).stakes sg.pair = st.stakes sg.pair
    ∧ (execStep now st sg).pastTrades = st.pastTrades
    ∧ (execStep now st sg).profit = st.profit
    ∧ (execStep now st sg).roi = st.roi := by
  have hnoop : execStep now st sg = st := by
    rw [execStep, if_pos hfresh, hdir]
    by_cases hpos : 0 < st.stakes sg.pair
    · have hle' : sg.price ≤ st.stakes sg.pair := by
        rcases hle with h | h
        · exact h
        · rw [h] at hpos; exact absurd hpos (by norm_num)
      simp only [if_pos hpos]
      rw [if_neg (by linarith)]
    · simp only [if_neg hpos]
  rw [hnoop]
  exact ⟨rfl, rfl, rfl, rfl⟩

/-- Witness for C5: Flat (stake 0) with a fresh SELL at 90 is a no-op. -/
theorem execStep_unprofitable_sell_witness :
    (execStep 0 initExec ⟨0, Direction.SELL, "X", 90⟩).stakes "X" = initExec.stakes "X"
    ∧ (execStep 0 initExec ⟨0, Direction.SELL, "X", 90⟩).pastTrades = initExec.pastTrades
    ∧ (execStep 0 initExec ⟨0, Direction.SELL, "X", 90⟩).profit = initExec.profit
    ∧ (execStep 0 initExec ⟨0, Direction.SELL, "X", 90⟩).roi = initExec.roi :=
  execStep_unprofitable_sell 0 initExec ⟨0, Direction.SELL, "X", 90⟩ rfl (by norm_num)
    (Or.inr rfl)

/-! ### Claim C6 -/

/-- C6: a signal whose age `now - ts` is at least the 5000 ms staleness
threshold is discarded without touching anything: the executor state —
stakes, profit, roi, and the trade log — is left exactly as it was. -/
theorem execStep_stale_noop (now : ℤ) (st : ExecState) (sg : Signal)
    (hstale : 5000 ≤ now - sg.ts) :
    execStep now st sg = st := by
  rw [execStep, if_neg (by omega)]

/-- Witness for C6: a signal exactly 5000 ms old leaves the state untouched. -/
theorem execStep_stale_noop_witness :
    execStep 5000 initExec ⟨0, Direction.BUY, "X", 10⟩ = initExec :=
  execStep_stale_noop 5000 initExec ⟨0, Direction.BUY, "X", 10⟩ (by norm_num)

/-! ### Claim C7 -/

theorem execStep_stake_nonneg (now : ℤ) (st : ExecState) (sg : Signal)
    (hprice : 0 < sg.price) (hst : ∀ p, 0 ≤ st.stakes p) :
    ∀ p, 0 ≤ (execStep now st sg).stakes p := by
  intro p
  rw [execStep]
  by_cases hfresh : now - sg.ts < 5000
  · rw [if_pos hfresh]
    cases hd : sg.dir with
    | BUY =>
      by_cases hz : st.stakes sg.pair = 0
      · simp only [if_pos hz, Function.update]
        by_cases hp : p = sg.pair
        · simp [hp]
          linarith
        · simp [hp]
          exact hst p
      · simp only [if_neg hz]
        exact hst p
    | SELL =>
      by_cases hpos : 0 < st.stakes sg.pair
      · by_cases hpp : 0 < sg.price - st.stakes sg.pair
        · simp only [if_pos hpos, if_pos hpp, Function.update]
          by_cases hp : p = sg.pair
          · simp [hp]
          · simp [hp]
            exact hst p
        · simp only [if_pos hpos, if_neg hpp]
          exact hst p
      · simp only [if_neg hpos]
        exact hst p
  · rw [if_neg hfresh]
    exact hst p

/-- C7: (i) after consuming any trace of signals with positive prices, every
instrument's position is Flat (stake 0) or Long (stake > 0), never negative;
(ii) a fresh BUY while already Long leaves the whole state — in particular
the stake — unchanged. -/
theorem exec_flat_or_long_and_long_buy_noop :
    (∀ events : List (ℤ × Signal), (∀ ev ∈ events, 0 < (Prod.snd ev).price) →
      ∀ p, (execRun events).stakes p = 0 ∨ 0 < (execRun events).stakes p)
    ∧ (∀ (now : ℤ) (st : ExecState) (sg : Signal),
        sg.dir = Direction.BUY → 0 < st.stakes sg.pair → execStep now st sg = st) := by
  constructor
  · intro events hpos p
    have hnn : ∀ p, 0 ≤ (execRun events).stakes p := by
      rw [execRun]
      have hgen : ∀ (evs : List (ℤ × Signal)) (st : ExecState),
          (∀ ev ∈ evs, 0 < (Prod.snd ev).price) → (∀ q, 0 ≤ st.stakes q) →
          ∀ q, 0 ≤ (evs.foldl (fun st ev => execStep ev.1 st ev.2) st).stakes q := by
        intro evs
        induction evs with
        | nil => intro st _ hst q; exact hst q
        | cons ev rest ih =>
          intro st hevs hst q
          rw [List.foldl_cons]
          exact ih (execStep ev.1 st ev.2)
            (fun e he => hevs e (List.mem_cons_of_mem _ he))
            (execStep_stake_nonneg ev.1 st ev.2 (hevs ev (List.mem_cons_self _ _)) hst) q
      exact hgen events initExec hpos (fun q => le_refl 0)
    rcases lt_or_eq_of_le (hnn p) with h | h
    · exact Or.inr h
    · exact Or.inl h.symm
  · intro now st sg hdir hlong
    rw [execStep]
    by_cases hfresh : now - sg.ts < 5000
    · rw [if_pos hfresh, hdir]
      simp only [if_neg (by linarith : ¬ st.stakes sg.pair = 0)]
    · rw [if_neg hfresh]

/-- Witness for C7: a concrete positive-price trace (BUY then BUY) and a
concrete Long-BUY no-op. -/
theorem exec_flat_or_long_and_long_buy_noop_witness :
    (∀ p, (execRun [(0, ⟨0, Direction.BUY, "X", 10⟩), (1, ⟨1, Direction.BUY, "X", 12⟩)]).stakes p = 0
        ∨ 0 < (execRun [(0, ⟨0, Direction.BUY, "X", 10⟩), (1, ⟨1, Direction.BUY, "X", 12⟩)]).stakes p)
    ∧ execStep 0 { initExec with stakes := Function.update initExec.stakes "X" 100 }
        ⟨0, Direction.BUY, "X", 12⟩
      = { initExec with stakes := Function.update initExec.stakes "X" 100 } := by
  constructor
  · exact exec_flat_or_long_and_long_buy_noop.1
      [(0, ⟨0, Direction.BUY, "X", 10⟩), (1, ⟨1, Direction.BUY, "X", 12⟩)]
      (by
        intro ev hev
        rcases List.mem_cons.mp hev with h | h
        · subst h; norm_num
        · rcases List.mem_cons.mp h with h2 | h2
          · subst h2; norm_num
          · cases h2)
  · exact exec_flat_or_long_and_long_buy_noop.2 0
      { initExec with stakes := Function.update initExec.stakes "X" 100 }
      ⟨0, Direction.BUY, "X", 12⟩ rfl (by simp [Function.update, initExec])

/-! ### Latency sample production (`Trader.populate_signal_queue`, lines 204-222)

Per processed snapshot the loop appends `int(now - ts)` to its local
`latencies` list and pushes `[ts, int(sum(latencies)/len(latencies))]` onto
the latency queue.  An observation is a pair `(now, ts)` of the wall clock
at processing time and the snapshot timestamp; `int(...)` of the exact
quotient is truncation toward zero, i.e. `Int.div`. -/

/-- `int(now - ts)` (line 207). -/
def latOf (o : ℤ × ℤ) : ℤ := o.1 - o.2

/-- The engine's latency bookkeeping state: the local `latencies` list and
the samples pushed to the latency queue so far. -/
structure EngineLatState where
  lats : List ℤ
  pushed : List (ℤ × ℤ)
deriving Repr, DecidableEq

/-- One loop iteration's latency bookkeeping (lines 207 and 222):
append `int(now - ts)` to `latencies`, then push
`[ts, int(sum(latencies)/len(latencies))]`. -/
def engineLatStep (st : EngineLatState) (o : ℤ × ℤ) : EngineLatState :=
  let lats := st.lats ++ [latOf o]
  { lats := lats,
    pushed := st.pushed ++ [(o.2, Int.tdiv lats.sum (lats.length : ℤ))] }

/-- Processing a sequence of snapshot observations from the start of
`populate_signal_queue` (empty `latencies`). -/
def engineLatRun (obs : List (ℤ × ℤ)) : EngineLatState :=
  obs.foldl engineLatStep ⟨[], []⟩

theorem foldl_engineLatStep_lats (obs : List (ℤ × ℤ)) :
    ∀ st : EngineLatState, (obs.foldl engineLatStep st).lats = st.lats ++ obs.map latOf := by
  induction obs with
  | nil => intro st; simp
  | cons o rest ih =>
    intro st
    rw [List.foldl_cons, ih]
    simp [engineLatStep]

theorem engineLatRun_pushed (obs : List (ℤ × ℤ)) :
    (engineLatRun obs).pushed
      = (List.range obs.length).map (fun t =>
          ((obs.getD t (0, 0)).2,
            Int.tdiv ((obs.take (t + 1)).map latOf).sum ((t + 1 : ℕ) : ℤ))) := by
  induction obs using List.reverseRecOn with
  | nil => rfl
  | append_singleton obs o ih =>
    rw [engineLatRun, List.foldl_append]
    have hrun : obs.foldl engineLatStep ⟨[], []⟩ = engineLatRun obs := rfl
    rw [List.foldl_cons, List.foldl_nil, hrun]
    have hlats : (engineLatRun obs).lats = obs.map latOf := by
      rw [engineLatRun, foldl_engineLatStep_lats]
      simp
    rw [engineLatStep]
    simp only [hlats, ih]
    simp only [List.length_append, List.length_cons, List.length_nil, List.length_map,
      Nat.zero_add]
    rw [List.range_succ, List.map_append]
    congr 1
    · apply List.map_congr_left
      intro t ht
      have htlen : t < obs.length := List.mem_range.mp ht
      have h1 : (obs ++ [o]).getD t (0, 0) = obs.getD t (0, 0) := by
        rw [List.getD_eq_getElem?_getD, List.getD_eq_getElem?_getD,
          List.getElem?_append, if_pos htlen]
      have h2 : (obs ++ [o]).take (t + 1) = obs.take (t + 1) := by
        rw [List.take_append_of_le_length (by omega)]
      rw [h1, h2]
    · have h1 : (obs ++ [o]).getD obs.length (0, 0) = o := by
        rw [List.getD_eq_getElem?_getD]
        simp
      have h2 : (obs ++ [o]).take (obs.length + 1) = obs ++ [o] := by
        apply List.take_of_length_le
        simp
      rw [List.map_cons, List.map_nil, h1, h2]
      simp

/-! ### Claim C9 -/

/-- Counterexample for C9: with observations `(now, ts)` equal to
`(1000, 990)` then `(2000, 1980)`, the per-snapshot latencies are 10 and
20 ms; the sample pushed for the second snapshot carries `15`
(the integer mean of the latencies so far), not `now - ts = 20`. -/
theorem engineLat_pushed_not_individual :
    (engineLatRun [(1000, 990), (2000, 1980)]).pushed.getD 1 (0, 0) = (1980, 15)
    ∧ ((engineLatRun [(1000, 990), (2000, 1980)]).pushed.getD 1 (0, 0)).2
        ≠ (2000 : ℤ) - 1980 := by
  constructor
  · with_unfolding_all rfl
  · with_unfolding_all decide

/-- C9 (amended): the LatencySample pushed for the `t`-th processed snapshot
carries that snapshot's timestamp together with the truncated integer mean
of all per-snapshot latencies `now - ts` recorded so far by this engine
loop (not the individual latency); for the first processed snapshot the two
coincide. -/
theorem engineLat_pushed_is_running_mean (obs : List (ℤ × ℤ)) (t : ℕ) (ht : t < obs.length) :
    (engineLatRun obs).pushed.getD t (0, 0)
      = ((obs.getD t (0, 0)).2,
          Int.tdiv ((obs.take (t + 1)).map latOf).sum ((t + 1 : ℕ) : ℤ))
    ∧ ((engineLatRun obs).pushed.getD 0 (0, 0)).2
      = (obs.getD 0 (0, 0)).1 - (obs.getD 0 (0, 0)).2 := by
  have hchar : ∀ u, u < obs.length → (engineLatRun obs).pushed.getD u (0, 0)
      = ((obs.getD u (0, 0)).2,
          Int.tdiv ((obs.take (u + 1)).map latOf).sum ((u + 1 : ℕ) : ℤ)) := by
    intro u hu
    rw [engineLatRun_pushed]
    have hlen : u < ((List.range obs.length).map (fun t =>
        ((obs.getD t (0, 0)).2,
          Int.tdiv ((obs.take (t + 1)).map latOf).sum ((t + 1 : ℕ) : ℤ)))).length := by
      simp [hu]
    rw [List.getD_eq_getElem _ _ hlen]
    simp
  constructor
  · exact hchar t ht
  · rw [hchar 0 (by omega)]
    rcases obs with _ | ⟨o, rest⟩
    · simp at ht
    · simp [latOf, Int.tdiv_one]

/-- Witness for C9 (amended): the concrete two-observation trace. -/
theorem engineLat_pushed_is_running_mean_witness :
    (engineLatRun [(1000, 990), (2000, 1980)]).pushed.getD 1 (0, 0)
      = ((([(1000, 990), (2000, 1980)] : List (ℤ × ℤ)).getD 1 (0, 0)).2,
          Int.tdiv ((([(1000, 990), (2000, 1980)] : List (ℤ × ℤ)).take 2).map latOf).sum
            ((2 : ℕ) : ℤ))
    ∧ ((engineLatRun [(1000, 990), (2000, 1980)]).pushed.getD 0 (0, 0)).2
      = (([(1000, 990), (2000, 1980)] : List (ℤ × ℤ)).getD 0 (0, 0)).1
          - (([(1000, 990), (2000, 1980)] : List (ℤ × ℤ)).getD 0 (0, 0)).2 :=
  engineLat_pushed_is_running_mean [(1000, 990), (2000, 1980)] 1 (by decide)

/-! ### LatencyMonitor (`Trader.latency_bookkeeper`, lines 291-308)

The loop keeps two parallel in-memory lists `X`, `Y`.  On each observation
of a queued sample: if `len(X) < saving_batch_size` the sample is popped
and appended; otherwise the batch is merge-flushed — the existing persisted
arrays (if any) are loaded, `X = oldX + X; Y = oldY + Y`, the result is
saved under the session key, and the buffers reset — and, crucially, the
sample that triggered the flush is *not* consumed by that iteration: it is
popped on the next one.  For `batch ≥ 1` (the default is 32) the post-flush
buffer is empty, so the flush iteration and the immediately following
consuming iteration are collapsed into one step here.  The persisted file
for the session is modelled by the pair of lists `storeA`/`storeB`
(absent file = empty lists); `samples` is the order in which the monitor
observes queued samples. -/

structure MonState where
  bufX : List ℤ
  bufY : List ℤ
  storeA : List ℤ
  storeB : List ℤ
  flushCount : ℕ
deriving Repr, DecidableEq

/-- The merge-flush (lines 300-308): load old arrays, prepend them to the
buffered batch, persist, reset the buffers. -/
def monFlush (st : MonState) : MonState :=
  { bufX := [], bufY := [],
    storeA := st.storeA ++ st.bufX, storeB := st.storeB ++ st.bufY,
    flushCount := st.flushCount + 1 }

/-- Popping one sample into the buffers (lines 296-298). -/
def monConsume (st : MonState) (s : ℤ × ℤ) : MonState :=
  { st with bufX := st.bufX ++ [s.1], bufY := st.bufY ++ [s.2] }

/-- One observed sample's worth of the loop: consume if the buffer is below
the batch size, otherwise flush first (the triggering sample is then popped
by the next iteration, collapsed here; exact for `1 ≤ batch`). -/
def monStep (batch : ℕ) (st : MonState) (s : ℤ × ℤ) : MonState :=
  if st.bufX.length < batch then monConsume st s else monConsume (monFlush st) s

def monProcess (batch : ℕ) (st : MonState) (l : List (ℤ × ℤ)) : MonState :=
  l.foldl (monStep batch) st

/-- Fresh session: empty buffers, no persisted file yet. -/
def monInit : MonState := ⟨[], [], [], [], 0⟩

/-- Running the monitor over the samples it observes, from a fresh session. -/
def monRun (batch : ℕ) (l : List (ℤ × ℤ)) : MonState := monProcess batch monInit l

theorem monProcess_append (batch : ℕ) (st : MonState) (l1 l2 : List (ℤ × ℤ)) :
    monProcess batch st (l1 ++ l2) = monProcess batch (monProcess batch st l1) l2 :=
  List.foldl_append _ _ _ _

/-- Processing that fits in the remaining buffer capacity only consumes. -/
theorem monProcess_fill (batch : ℕ) (l : List (ℤ × ℤ)) :
    ∀ st : MonState, st.bufX.length + l.length ≤ batch →
      monProcess batch st l
        = { st with bufX := st.bufX ++ l.map Prod.fst, bufY := st.bufY ++ l.map Prod.snd } := by
  induction l with
  | nil => intro st _; simp [monProcess]
  | cons s rest ih =>
    intro st hle
    simp only [List.length_cons] at hle
    have hlt : st.bufX.length < batch := by omega
    rw [monProcess, List.foldl_cons, monStep, if_pos hlt]
    have hrec := ih (monConsume st s) (by simp [monConsume]; omega)
    rw [monProcess] at hrec
    rw [hrec]
    simp [monConsume]

/-- Processing a stretch that overruns the batch size by between 1 and
`batch` samples performs exactly one merge-flush, persisting the old store
followed by the first `batch` buffered samples, and leaves the overrun
samples buffered. -/
theorem monProcess_one_flush (batch : ℕ) (st : MonState) (l : List (ℤ × ℤ))
    (hbuf : st.bufX.length ≤ batch)
    (hlow : batch + 1 ≤ st.bufX.length + l.length)
    (hhigh : st.bufX.length + l.length ≤ 2 * batch) :
    monProcess batch st l
      = { bufX := (l.drop (batch - st.bufX.length)).map Prod.fst,
          bufY := (l.drop (batch - st.bufX.length)).map Prod.snd,
          storeA := st.storeA ++ st.bufX ++ (l.take (batch - st.bufX.length)).map Prod.fst,
          storeB := st.storeB ++ st.bufY ++ (l.take (batch - st.bufX.length)).map Prod.snd,
          flushCount := st.flushCount + 1 } := by
  set k := batch - st.bufX.length with hk
  have hkl : k < l.length := by omega
  have hsplit : l = l.take k ++ l.drop k := (List.take_append_drop k l).symm
  have hstep1 : monProcess batch st l
      = monProcess batch (monProcess batch st (l.take k)) (l.drop k) := by
    conv_lhs => rw [hsplit]
    rw [monProcess_append]
  have hfill := monProcess_fill batch (l.take k) st (by
    rw [List.length_take]
    omega)
  rw [hstep1, hfill]
  have hlen1 : (st.bufX ++ (l.take k).map Prod.fst).length = batch := by
    rw [List.length_append, List.length_map, List.length_take]
    omega
  rcases hdrop : l.drop k with _ | ⟨m, rest⟩
  · exfalso
    have := congrArg List.length hdrop
    rw [List.length_drop] at this
    simp at this
    omega
  · rw [monProcess, List.foldl_cons, monStep]
    rw [if_neg (by rw [hlen1]; omega)]
    have hrl : rest.length = l.length - k - 1 := by
      have := congrArg List.length hdrop
      rw [List.length_drop] at this
      simp at this
      omega
    have hrest : (monConsume (monFlush
        { st with bufX := st.bufX ++ (l.take k).map Prod.fst,
                  bufY := st.bufY ++ (l.take k).map Prod.snd }) m).bufX.length
        + rest.length ≤ batch := by
      simp [monConsume, monFlush, hrl]
      omega
    have hrec := monProcess_fill batch rest _ hrest
    rw [monProcess] at hrec
    rw [hrec]
    simp [monConsume, monFlush, List.append_assoc]

/-! ### Claim C8 -/

/-- Counterexample for C8: with `batchSize = 2`, feeding exactly 2 samples
leaves both buffered — zero flushes happen and nothing is persisted,
contradicting the claimed single flush containing both samples.  (The flush
branch only runs when a further sample is observed while the buffer is
already full.) -/
theorem monRun_exact_batch_no_flush :
    monRun 2 [(1, 10), (2, 20)] = ⟨[1, 2], [10, 20], [], [], 0⟩ := by
  decide

/-- C8 (amended): with `1 ≤ batchSize`, feeding `batchSize + 1` samples
triggers exactly one persisted flush containing the first `batchSize`
samples (the flush is deferred until the extra sample is observed, which
then remains buffered); feeding `2*batchSize + 1` samples in total triggers
exactly two flushes, after which the persisted content is the concatenation
of the first two `batchSize`-sample batches in observation order under the
same session key, with only the extra sample buffered. -/
theorem monitor_flush_deferred (batch : ℕ) (hb : 1 ≤ batch) :
    (∀ l : List (ℤ × ℤ), l.length = batch + 1 →
      monRun batch l
        = { bufX := (l.drop batch).map Prod.fst, bufY := (l.drop batch).map Prod.snd,
            storeA := (l.take batch).map Prod.fst, storeB := (l.take batch).map Prod.snd,
            flushCount := 1 })
    ∧ (∀ l : List (ℤ × ℤ), l.length = 2 * batch + 1 →
      monRun batch l
        = { bufX := (l.drop (2 * batch)).map Prod.fst,
            bufY := (l.drop (2 * batch)).map Prod.snd,
            storeA := (l.take (2 * batch)).map Prod.fst,
            storeB := (l.take (2 * batch)).map Prod.snd,
            flushCount := 2 }) := by
  constructor
  · intro l hlen
    rw [monRun, monProcess_one_flush batch monInit l (by simp [monInit])
      (by simp [monInit]; omega) (by simp [monInit]; omega)]
    simp [monInit]
  · intro l hlen
    have hlen1 : (l.take (batch + 1)).length = batch + 1 := by
      rw [List.length_take]; omega
    have hlen2 : (l.drop (batch + 1)).length = batch := by
      rw [List.length_drop]; omega
    have htb : (l.take (batch + 1)).take batch = l.take batch := by
      have hmin : min batch (batch + 1) = batch := by omega
      rw [List.take_take, hmin]
    have hsplit : l = l.take (batch + 1) ++ l.drop (batch + 1) :=
      (List.take_append_drop _ l).symm
    have hstep : monRun batch l
        = monProcess batch (monProcess batch monInit (l.take (batch + 1)))
            (l.drop (batch + 1)) := by
      rw [monRun]
      conv_lhs => rw [hsplit]
      rw [monProcess_append]
    have h1 : monProcess batch monInit (l.take (batch + 1))
        = { bufX := ((l.take (batch + 1)).drop batch).map Prod.fst,
            bufY := ((l.take (batch + 1)).drop batch).map Prod.snd,
            storeA := (l.take batch).map Prod.fst,
            storeB := (l.take batch).map Prod.snd,
            flushCount := 1 } := by
      rw [monProcess_one_flush batch monInit (l.take (batch + 1)) (by simp [monInit])
        (by simp [monInit]; omega) (by simp [monInit]; omega)]
      simp [monInit, htb]
    have hbuf1 : (((l.take (batch + 1)).drop batch).map Prod.fst).length = 1 := by
      rw [List.length_map, List.length_drop, hlen1]
      omega
    have h2 := monProcess_one_flush batch
      { bufX := ((l.take (batch + 1)).drop batch).map Prod.fst,
        bufY := ((l.take (batch + 1)).drop batch).map Prod.snd,
        storeA := (l.take batch).map Prod.fst,
        storeB := (l.take batch).map Prod.snd,
        flushCount := 1 }
      (l.drop (batch + 1))
      (by simp only [hbuf1]; omega)
      (by simp only [hbuf1, hlen2]; omega)
      (by simp only [hbuf1, hlen2]; omega)
    simp only [hbuf1] at h2
    have hdrop2 : (l.drop (batch + 1)).drop (batch - 1) = l.drop (2 * batch) := by
      have hadd : (batch + 1) + (batch - 1) = 2 * batch := by omega
      rw [List.drop_drop, hadd]
    have hjoin : ∀ f : ℤ × ℤ → ℤ,
        ((l.take batch).map f ++ ((l.take (batch + 1)).drop batch).map f)
            ++ ((l.drop (batch + 1)).take (batch - 1)).map f
          = (l.take (2 * batch)).map f := by
      intro f
      conv_lhs => rw [← htb]
      rw [← List.map_append, ← List.map_append, List.take_append_drop]
      have h2b : 2 * batch = (batch + 1) + (batch - 1) := by omega
      conv_rhs => rw [h2b, List.take_add]
    rw [hstep, h1, h2]
    simp only [MonState.mk.injEq]
    refine ⟨?_, ?_, ?_, ?_, trivial⟩
    · rw [hdrop2]
    · rw [hdrop2]
    · exact hjoin Prod.fst
    · exact hjoin Prod.snd

/-- Witness for C8 (amended): `batchSize = 2`; three samples give one flush
of the first two; five samples give two flushes persisting the first four
in order, with the fifth buffered. -/
theorem monitor_flush_deferred_witness :
    monRun 2 [(1, 10), (2, 20), (3, 30)] = ⟨[3], [30], [1, 2], [10, 20], 1⟩
    ∧ monRun 2 [(1, 10), (2, 20), (3, 30), (4, 40), (5, 50)]
        = ⟨[5], [50], [1, 2, 3, 4], [10, 20, 30, 40], 2⟩ := by
  constructor
  · have h := (monitor_flush_deferred 2 (by decide)).1 [(1, 10), (2, 20), (3, 30)] (by decide)
    rw [h]
    decide
  · have h := (monitor_flush_deferred 2 (by decide)).2
      [(1, 10), (2, 20), (3, 30), (4, 40), (5, 50)] (by decide)
    rw [h]
    decide

end Crypto000
